import Mathlib

/-!
# Verification of the bzip2 Huffman code-length allocator

Shallow embedding of `src/compression/bzip2/huffman-allocator.ts` and proofs
about its specified properties.

Modelling conventions:
* The shared mutable buffer is a `St` value carrying the buffer contents and
  three access-tracking flags.  All buffer values produced by the algorithm are
  non-negative, so contents are `Nat`; loop indices follow the source and may
  go negative, so they are `Int`.
* JavaScript numbers are idealised as unbounded integers (all values handled
  by the algorithm on its intended inputs are small exact integers).
* A read outside `[0, size)` yields JS `undefined`; every arithmetic
  comparison containing it is false (`NaN` semantics).  This is modelled by
  `Option`-aware comparison helpers, and the read is recorded in `okRead`.
* A write at a negative index stores a plain JS property and leaves the
  visible buffer `[0, size)` unchanged; it is recorded in `okWriteNeg`.
  A write at an index `≥ size` is recorded in `okWriteHigh`.
* Every while-loop becomes structural recursion on a fuel argument; the fuel
  supplied at each call site dominates the loop's iteration count on the
  executions the theorems below speak about.
-/

/-- Working state: the shared numeric buffer plus access-tracking flags. -/
structure St where
  buf : Array Nat
  okRead : Bool := true
  okWriteNeg : Bool := true
  okWriteHigh : Bool := true
deriving DecidableEq, Repr

/-- Buffer length as an integer (JS `array.length`). -/
def St.size (s : St) : Int := s.buf.size

/-- Read `array[i]`: `none` models JS `undefined` (out-of-range access). -/
def rdq (s : St) (i : Int) : Option Nat :=
  if 0 ≤ i then s.buf[i.toNat]? else none

/-- Record a read access in the `okRead` flag (contents unchanged). -/
def noteRead (s : St) (i : Int) : St :=
  if (rdq s i).isSome then s else { s with okRead := false }

/-- Read with default; only used where the surrounding run is in bounds. -/
def rdV (s : St) (i : Int) : Nat := (rdq s i).getD 0

/-- Write `array[i] = v` with JS out-of-range semantics (see header). -/
def wr (s : St) (i : Int) (v : Nat) : St :=
  if i < 0 then { s with okWriteNeg := false }
  else if i < s.size then { s with buf := s.buf.setD i.toNat v }
  else { s with okWriteHigh := false }

/-- JS comparison `array[x] % length > limit` (false on an undefined read). -/
def gtTest (s : St) (x limit : Int) : Bool :=
  match rdq s x with
  | some v => decide (limit < ((v % s.buf.size : Nat) : Int))
  | none => false

/-- JS comparison `array[x] < array[y]` (false on an undefined read). -/
def ltTest (s : St) (x y : Int) : Bool :=
  match rdq s x, rdq s y with
  | some a, some b => decide (a < b)
  | _, _ => false

/-- JS comparison `array[x] == v` (false on an undefined read). -/
def eqTest (s : St) (x v : Int) : Bool :=
  match rdq s x with
  | some a => decide ((a : Int) = v)
  | none => false

/-- First while-loop of `first` (lines 22-25): doubling search.
Returns the state and the final values of `i` and `k`. -/
def firstGallop (ntm limit : Int) : Nat → St → Int → Int → St × Int × Int
  | 0, s, i, k => (s, i, k)
  | fuel+1, s, i, k =>
    if ntm ≤ i then
      let s1 := noteRead s i
      if gtTest s1 i limit then firstGallop ntm limit fuel s1 (2*i - limit - 1) i
      else (s1, i, k)
    else (s, i, k)

/-- Second while-loop of `first` (lines 28-35): binary search on `(i, k]`.
`(i + k) >> 1` is floor division by two. -/
def firstBisect (limit : Int) : Nat → St → Int → Int → St × Int
  | 0, s, _, k => (s, k)
  | fuel+1, s, i, k =>
    if i + 1 < k then
      let temp := Int.fdiv (i + k) 2
      let s1 := noteRead s temp
      if gtTest s1 temp limit then firstBisect limit fuel s1 i temp
      else firstBisect limit fuel s1 temp k
    else (s, k)

/-- The FIRST() function (lines 17-38).  Returns the state and `k`. -/
def first (s : St) (i ntm : Int) : St × Int :=
  let limit := i
  let g := firstGallop ntm limit (i.toNat + 2) s i (s.size - 2)
  let i2 := max (ntm - 1) g.2.1
  firstBisect limit ((g.2.2 - i2).toNat + 2) g.1 i2 g.2.2

/-- One conditional consume step of pass 1 (either of the two if-blocks in
lines 53-66): decides between the merged-node queue at `headNode` and the
leaf queue at `topNode`.  `requireHeadLt` is the extra `headNode < tailNode`
conjunct of the second block, `ptrVal` the parent pointer stored when the
merged-node queue is consumed.  Returns (state, consumed value, head, top). -/
def seppStep (s : St) (headNode tailNode topNode : Nat) (requireHeadLt : Bool)
    (ptrVal : Nat) : St × Nat × Nat × Nat :=
  let n := s.buf.size
  let c : St × Bool :=
    if topNode ≥ n then (s, true)
    else if requireHeadLt && !(decide (headNode < tailNode)) then (s, false)
    else
      let sa := noteRead s (headNode : Int)
      let sb := noteRead sa (topNode : Int)
      (sb, ltTest sb (headNode : Int) (topNode : Int))
  if c.2 then
    let sc := noteRead c.1 (headNode : Int)
    let v := rdV sc (headNode : Int)
    (wr sc (headNode : Int) ptrVal, v, headNode + 1, topNode)
  else
    let sc := noteRead c.1 (topNode : Int)
    let v := rdV sc (topNode : Int)
    (sc, v, headNode, topNode + 1)

/-- The main loop of pass 1 (lines 50-69). -/
def seppLoop : Nat → St → Nat → Nat → Nat → St
  | 0, s, _, _, _ => s
  | fuel+1, s, headNode, tailNode, topNode =>
    if tailNode + 1 < s.buf.size then
      let r1 := seppStep s headNode tailNode topNode false tailNode
      let r2 := seppStep r1.1 r1.2.2.1 tailNode r1.2.2.2 true
        (tailNode + r1.1.buf.size)
      let s3 := wr r2.1 (tailNode : Int) (r1.2.1 + r2.2.1)
      seppLoop fuel s3 r2.2.2.1 (tailNode + 1) r2.2.2.2
    else s

/-- Pass 1: `setExtendedParentPointers` (lines 44-70). -/
def setExtendedParentPointers (s : St) : St :=
  let s1 := noteRead s 0
  let s2 := noteRead s1 1
  let s3 := wr s2 0 (rdV s2 0 + rdV s2 1)
  seppLoop s3.buf.size s3 0 1 2

/-- The loop of pass 2 (lines 82-86). -/
def fntrLoop (ml : Int) : Nat → St → Int → Int → St × Int
  | 0, s, _, currentNode => (s, currentNode)
  | fuel+1, s, currentDepth, currentNode =>
    if currentDepth < ml - 1 ∧ 1 < currentNode then
      let r := first s (currentNode - 1) 0
      fntrLoop ml fuel r.1 (currentDepth + 1) r.2
    else (s, currentNode)

/-- Pass 2: `findNodesToRelocate` (lines 79-89). -/
def findNodesToRelocate (s : St) (ml : Int) : St × Int :=
  fntrLoop ml (ml.toNat + 2) s 1 (s.size - 2)

/-- The inner write loop `for (i = cnt; i > 0; i--) array[nextNode--] = d`
(lines 107-109 and 146-148).  Returns the state and the final `nextNode`. -/
def writeRun : Nat → St → Int → Nat → St × Int
  | 0, s, nextNode, _ => (s, nextNode)
  | cnt+1, s, nextNode, d => writeRun cnt (wr s nextNode d) (nextNode - 1) d

/-- The loop of the unlimited pass-3 variant (lines 101-112). -/
def anlLoop : Nat → St → Int → Int → Nat → Int → St
  | 0, s, _, _, _, _ => s
  | fuel+1, s, firstNode, nextNode, currentDepth, availableNodes =>
    if 0 < availableNodes then
      let lastNode := firstNode
      let r := first s (lastNode - 1) 0
      let w := writeRun (availableNodes - (lastNode - r.2)).toNat r.1 nextNode
        currentDepth
      anlLoop fuel w.1 r.2 w.2 (currentDepth + 1) ((lastNode - r.2) * 2)
    else s

/-- Pass 3, unlimited variant: `allocateNodeLengths` (lines 96-113). -/
def allocateNodeLengths (s : St) : St :=
  anlLoop (s.buf.size + 2) s (s.size - 2) (s.size - 1) 1 2

/-- Initial `currentDepth`, `availableNodes` and `nodesLeftToMove` of the
relocating pass-3 variant (lines 126-130): `currentDepth` is 2 when
`insertDepth == 1` and 1 otherwise, `availableNodes = currentDepth << 1`,
and `nodesLeftToMove` is `nodesToMove - 2` when `insertDepth == 1`. -/
def relocInit (nodesToMove insertDepth : Int) : Int × Int × Int :=
  ((if insertDepth = 1 then 2 else 1),
   (if insertDepth = 1 then 2 else 1) * 2,
   (if insertDepth = 1 then nodesToMove - 2 else nodesToMove))

/-- The loop of the relocating pass-3 variant (lines 130-152). -/
def anlrLoop (nodesToMove insertDepth : Int) :
    Nat → St → Int → Int → Int → Int → Int → St
  | 0, s, _, _, _, _, _ => s
  | fuel+1, s, firstNode, nextNode, currentDepth, nodesLeftToMove,
      availableNodes =>
    if 0 < availableNodes then
      let lastNode := firstNode
      let p : St × Int :=
        if firstNode ≤ nodesToMove then (s, firstNode)
        else first s (lastNode - 1) nodesToMove
      let q : St × Int × Int :=
        if insertDepth ≤ currentDepth then
          (p.1, p.2,
            min nodesLeftToMove ((2 : Int) ^ (currentDepth - insertDepth).toNat))
        else if currentDepth = insertDepth - 1 then
          let s2 := noteRead p.1 p.2
          (s2, (if eqTest s2 p.2 lastNode then p.2 + 1 else p.2), 1)
        else (p.1, p.2, 0)
      let w := writeRun (availableNodes - (lastNode - q.2.1 + q.2.2)).toNat q.1
        nextNode currentDepth.toNat
      anlrLoop nodesToMove insertDepth fuel w.1 q.2.1 w.2 (currentDepth + 1)
        (nodesLeftToMove - q.2.2) ((lastNode - q.2.1 + q.2.2) * 2)
    else s

/-- Pass 3, relocating variant: `allocateNodeLengthsWithRelocation`
(lines 122-153). -/
def allocateNodeLengthsWithRelocation (s : St) (nodesToMove insertDepth : Int) :
    St :=
  let c := relocInit nodesToMove insertDepth
  anlrLoop nodesToMove insertDepth (4 * s.buf.size + 64) s (s.size - 2)
    (s.size - 1) c.1 c.2.2 c.2.1

/-- Helper for `fls`: repeated halving with fuel (fuel `≥ v` is exact). -/
def flsAux : Nat → Nat → Nat
  | 0, _ => 0
  | fuel+1, v => if v = 0 then 0 else flsAux fuel (v / 2) + 1

/-- Modelled from the spec: `Util.fls` is imported from `./util`, a file that
is not among the sources.  Section 4.1 of the spec describes the value used
as `maximumLength - floor(log2(nodesToRelocate - 1)) - 1`-equivalent, "the
highest set bit of `nodesToRelocate - 1`, subtracted from the limit", i.e.
find-last-set: the position of the highest set bit, with `fls 0 = 0`,
`fls 1 = 1`, `fls 4 = 3`. -/
def fls (v : Nat) : Nat := flsAux v v

/-- The public entry point `allocateHuffmanCodeLengths` (lines 164-187).
The `switch` falls through from `case 2` to `case 1`. -/
def allocateHuffmanCodeLengths (s : St) (maximumLength : Int) : St :=
  if s.buf.size = 2 then wr (wr s 1 1) 0 1
  else if s.buf.size = 1 then wr s 0 1
  else
    let s1 := setExtendedParentPointers s
    let r := findNodesToRelocate s1 maximumLength
    let s3 := noteRead r.1 0
    if r.2 ≤ ((rdV s3 0 % s3.buf.size : Nat) : Int) then
      allocateNodeLengths s3
    else
      allocateNodeLengthsWithRelocation s3 r.2
        (maximumLength - (fls (r.2 - 1).toNat : Int))

/-- Run the allocator on a plain frequency buffer (all flags initially set). -/
def runAlloc (a : Array Nat) (maximumLength : Int) : St :=
  allocateHuffmanCodeLengths { buf := a } maximumLength

/-- Kraft sum `Σ 2^(-length[i])` of a buffer, as a rational number. -/
def kraftSum (a : Array Nat) : ℚ :=
  (a.toList.map (fun l => ((1 : ℚ) / 2 ^ l))).sum

/-- Boolean check that a list is sorted in non-decreasing order. -/
def sortedChk : List Nat → Bool
  | [] => true
  | [_] => true
  | x :: y :: t => x ≤ y && sortedChk (y :: t)

/-- The input frequencies are sorted in non-decreasing order. -/
def SortedAsc (a : Array Nat) : Prop := sortedChk a.toList = true

instance (a : Array Nat) : Decidable (SortedAsc a) :=
  inferInstanceAs (Decidable (_ = true))

/-! ## Basic facts about the state primitives -/

@[simp] theorem noteRead_buf (s : St) (i : Int) : (noteRead s i).buf = s.buf := by
  unfold noteRead; split <;> rfl

@[simp] theorem noteRead_okWriteNeg (s : St) (i : Int) :
    (noteRead s i).okWriteNeg = s.okWriteNeg := by
  unfold noteRead; split <;> rfl

@[simp] theorem noteRead_okWriteHigh (s : St) (i : Int) :
    (noteRead s i).okWriteHigh = s.okWriteHigh := by
  unfold noteRead; split <;> rfl

@[simp] theorem wr_size (s : St) (i : Int) (v : Nat) :
    (wr s i v).buf.size = s.buf.size := by
  unfold wr; split
  · rfl
  · split <;> simp [Array.size_setD]

@[simp] theorem noteRead_okRead_true (s : St) (i : Int)
    (h : (rdq s i).isSome) : noteRead s i = s := by
  unfold noteRead; simp [h]

/-! ## Purity of `first` and `findNodesToRelocate` (claim C8) -/

theorem firstGallop_buf (ntm limit : Int) (fuel : Nat) (s : St) (i k : Int) :
    (firstGallop ntm limit fuel s i k).1.buf = s.buf := by
  induction fuel generalizing s i k with
  | zero => rfl
  | succ fuel ih =>
    unfold firstGallop
    split
    · dsimp only
      split
      · rw [ih]; simp
      · simp
    · rfl

theorem firstBisect_buf (limit : Int) (fuel : Nat) (s : St) (i k : Int) :
    (firstBisect limit fuel s i k).1.buf = s.buf := by
  induction fuel generalizing s i k with
  | zero => rfl
  | succ fuel ih =>
    unfold firstBisect
    split
    · dsimp only
      split <;> (rw [ih]; simp)
    · rfl

theorem first_buf (s : St) (i ntm : Int) : (first s i ntm).1.buf = s.buf := by
  unfold first
  rw [firstBisect_buf, firstGallop_buf]

theorem fntrLoop_buf (ml : Int) (fuel : Nat) (s : St) (d c : Int) :
    (fntrLoop ml fuel s d c).1.buf = s.buf := by
  induction fuel generalizing s d c with
  | zero => rfl
  | succ fuel ih =>
    unfold fntrLoop
    split
    · rw [ih, first_buf]
    · rfl

/-- C8: `first` and `findNodesToRelocate` never mutate the buffer: after
either call the array contents are identical to the contents before it. -/
theorem first_findNodesToRelocate_pure (s : St) (i ntm ml : Int) :
    (first s i ntm).1.buf = s.buf ∧ (findNodesToRelocate s ml).1.buf = s.buf :=
  ⟨first_buf s i ntm, fntrLoop_buf ml _ s 1 (s.size - 2)⟩

/-! ## Degenerate sizes (claims C6 and C9) -/

theorem alloc_size_one (x : Nat) (ml : Int) :
    runAlloc #[x] ml = { buf := #[1] } := rfl

theorem alloc_size_two (x y : Nat) (ml : Int) :
    runAlloc #[x, y] ml = { buf := #[1, 1] } := rfl

/-- C6: the degenerate sizes are handled directly: for `n = 1` the output
buffer is `[1]` and for `n = 2` it is `[1, 1]`, whatever the frequencies and
`maximumLength` are. -/
theorem alloc_trivial_sizes (x y : Nat) (ml : Int) :
    (runAlloc #[x] ml).buf = #[1] ∧ (runAlloc #[x, y] ml).buf = #[1, 1] :=
  ⟨congrArg St.buf (alloc_size_one x ml), congrArg St.buf (alloc_size_two x y ml)⟩

/-- C9: for `n = 1` and `n = 2` the result does not depend on
`maximumLength`, including values such as 0 that violate the documented
precondition. -/
theorem alloc_trivial_ml_independent (x y : Nat) (ml₁ ml₂ : Int) :
    runAlloc #[x] ml₁ = runAlloc #[x] ml₂ ∧
      runAlloc #[x, y] ml₁ = runAlloc #[x, y] ml₂ :=
  ⟨(alloc_size_one x ml₁).trans (alloc_size_one x ml₂).symm,
   (alloc_size_two x y ml₁).trans (alloc_size_two x y ml₂).symm⟩

/-! ## Initialisation of the relocating assigner (claim C10) -/

/-- C10: with `insertDepth = 1` the level walk starts at `currentDepth = 2`
with `availableNodes = 4` and `nodesLeftToMove = nodesToMove - 2`; with any
`insertDepth ≥ 2` it starts at `currentDepth = 1` with `availableNodes = 2`
and `nodesLeftToMove = nodesToMove`. -/
theorem reloc_start (s : St) (ntm ins : Int) :
    (ins = 1 →
      allocateNodeLengthsWithRelocation s ntm ins =
        anlrLoop ntm ins (4 * s.buf.size + 64) s (s.size - 2) (s.size - 1)
          2 (ntm - 2) 4) ∧
    (2 ≤ ins →
      allocateNodeLengthsWithRelocation s ntm ins =
        anlrLoop ntm ins (4 * s.buf.size + 64) s (s.size - 2) (s.size - 1)
          1 ntm 2) := by
  constructor
  · rintro rfl
    unfold allocateNodeLengthsWithRelocation relocInit
    norm_num
  · intro h
    have : ins ≠ 1 := by omega
    unfold allocateNodeLengthsWithRelocation relocInit
    simp [this]

theorem reloc_start_witness :
    (allocateNodeLengthsWithRelocation { buf := #[1, 2, 3] } 5 1 =
      anlrLoop 5 1 76 { buf := #[1, 2, 3] } 1 2 2 3 4) ∧
    ((2 : Int) ≤ 2) ∧
    (allocateNodeLengthsWithRelocation { buf := #[1, 2, 3] } 5 2 =
      anlrLoop 5 2 76 { buf := #[1, 2, 3] } 1 2 1 5 2) :=
  ⟨(reloc_start { buf := #[1, 2, 3] } 5 1).1 rfl, by norm_num,
   (reloc_start { buf := #[1, 2, 3] } 5 2).2 (by norm_num)⟩

/-! ## Concrete evaluations refuting the Kraft and cap claims (C1, C2, C5) -/

/-- C1: at the sorted input `[0,0,0,0,0,0,0,1]` (n = 8) with
`maximumLength = 3 = ceil(log2 8)` (witnessed by `2^2 < 8 ≤ 2^3`) — which
satisfies the documented precondition — the allocator outputs
`[3,3,3,3,3,2,2,2]`, whose Kraft sum is `11/8 ≠ 1`. -/
theorem kraft_equality_fails :
    SortedAsc #[0, 0, 0, 0, 0, 0, 0, 1] ∧
    (2 ^ 2 < (#[0, 0, 0, 0, 0, 0, 0, 1] : Array Nat).size ∧
      (#[0, 0, 0, 0, 0, 0, 0, 1] : Array Nat).size ≤ 2 ^ 3) ∧
    (runAlloc #[0, 0, 0, 0, 0, 0, 0, 1] 3).buf = #[3, 3, 3, 3, 3, 2, 2, 2] ∧
    kraftSum (runAlloc #[0, 0, 0, 0, 0, 0, 0, 1] 3).buf = 11 / 8 := by
  refine ⟨by decide, by decide, by decide, ?_⟩
  have h : (runAlloc #[0, 0, 0, 0, 0, 0, 0, 1] 3).buf
      = #[3, 3, 3, 3, 3, 2, 2, 2] := by decide
  rw [h]
  norm_num [kraftSum]

/-- C2: at `n = 1` with `maximumLength = 0 = ceil(log2 1)` — which satisfies
the documented precondition — the single output length is `1 > 0`, so the
length cap is violated. -/
theorem length_cap_fails :
    (#[7] : Array Nat).size ≤ 2 ^ 0 ∧
    (runAlloc #[7] 0).buf = #[1] ∧
    ¬(∀ v ∈ (runAlloc #[7] 0).buf.toList, (v : Int) ≤ 0) := by
  refine ⟨by decide, by decide, ?_⟩
  intro h
  have := h 1 (by decide)
  omega

/-- C5 counterexample: on the sorted buffer `[0,0,0,0,0]` with
`maximumLength = 0` the allocator attempts a write at a negative index, so
it is not the case that every access stays inside `0..n-1`. -/
theorem access_escapes_buffer :
    SortedAsc #[0, 0, 0, 0, 0] ∧ 1 ≤ (#[0, 0, 0, 0, 0] : Array Nat).size ∧
    (runAlloc #[0, 0, 0, 0, 0] 0).okWriteNeg = false := by
  exact ⟨by decide, by decide, by decide⟩

/-! ## The pass-3 dispatch (claim C7) -/

/-- State after passes 1 and 2 and the orchestrator's read of `array[0]`
(line 181). -/
def pass2State (a : Array Nat) (ml : Int) : St :=
  noteRead (findNodesToRelocate (setExtendedParentPointers { buf := a }) ml).1 0

/-- `nodesToRelocate` as computed by pass 2 (line 178). -/
def nodesToRelocateOf (a : Array Nat) (ml : Int) : Int :=
  (findNodesToRelocate (setExtendedParentPointers { buf := a }) ml).2

/-- C7: for `n ≥ 3` the orchestrator runs the unlimited assigner exactly when
`array[0] % n ≥ nodesToRelocate` holds after passes 1 and 2; otherwise it
runs the limited assigner with `insertDepth` equal to `maximumLength` minus
the highest-set-bit position of `nodesToRelocate - 1`. -/
theorem alloc_dispatch (a : Array Nat) (ml : Int) (h3 : 3 ≤ a.size) :
    (nodesToRelocateOf a ml ≤
        ((rdV (pass2State a ml) 0 % (pass2State a ml).buf.size : Nat) : Int) →
      runAlloc a ml = allocateNodeLengths (pass2State a ml)) ∧
    (((rdV (pass2State a ml) 0 % (pass2State a ml).buf.size : Nat) : Int) <
        nodesToRelocateOf a ml →
      runAlloc a ml = allocateNodeLengthsWithRelocation (pass2State a ml)
        (nodesToRelocateOf a ml)
        (ml - (fls (nodesToRelocateOf a ml - 1).toNat : Int))) := by
  have h2 : ¬(({ buf := a } : St).buf.size = 2) := by simp; omega
  have h1 : ¬(({ buf := a } : St).buf.size = 1) := by simp; omega
  constructor
  · intro h
    simp only [pass2State, nodesToRelocateOf] at h ⊢
    unfold runAlloc allocateHuffmanCodeLengths
    rw [if_neg h2, if_neg h1]
    dsimp only
    rw [if_pos h]
  · intro h
    simp only [pass2State, nodesToRelocateOf] at h ⊢
    unfold runAlloc allocateHuffmanCodeLengths
    rw [if_neg h2, if_neg h1]
    dsimp only
    rw [if_neg (by omega)]

theorem alloc_dispatch_witness :
    3 ≤ (#[1, 1, 2, 2, 4] : Array Nat).size ∧
    runAlloc #[1, 1, 2, 2, 4] 4 = allocateNodeLengths (pass2State #[1, 1, 2, 2, 4] 4) :=
  ⟨by decide, (alloc_dispatch #[1, 1, 2, 2, 4] 4 (by decide)).1 (by decide)⟩

/-! ## The contract of `first` (claim C4) -/

/-- C4 counterexample: `[5, 6, 40, 16]` is the post-pass-1 form of the sorted
frequency buffer `[6, 6, 12, 16]`; at `i = 0`, `nodesToMove = 1` no index `k`
with `1 ≤ k ≤ 0` exists at all, yet `first` returns `1`, so it does not
return "the smallest index k with nodesToMove ≤ k ≤ i such that
array[k] % n > i". -/
theorem first_contract_fails :
    SortedAsc #[6, 6, 12, 16] ∧
    (setExtendedParentPointers { buf := #[6, 6, 12, 16] }).buf = #[5, 6, 40, 16] ∧
    (first (setExtendedParentPointers { buf := #[6, 6, 12, 16] }) 0 1).2 = 1 ∧
    ¬ IsLeast {k : Int | 1 ≤ k ∧ k ≤ 0 ∧
        gtTest (setExtendedParentPointers { buf := #[6, 6, 12, 16] }) k 0 = true}
      ((first (setExtendedParentPointers { buf := #[6, 6, 12, 16] }) 0 1).2) := by
  refine ⟨by decide, by decide, by decide, ?_⟩
  rintro ⟨⟨h1, h0, -⟩, -⟩
  omega

/-! ### Helper facts for the search lemmas -/

theorem rdq_congr {s1 s2 : St} (h : s1.buf = s2.buf) (i : Int) :
    rdq s1 i = rdq s2 i := by
  unfold rdq; rw [h]

theorem gtTest_congr {s1 s2 : St} (h : s1.buf = s2.buf) (x limit : Int) :
    gtTest s1 x limit = gtTest s2 x limit := by
  unfold gtTest; rw [rdq_congr h, h]

@[simp] theorem rdq_noteRead (s : St) (i j : Int) :
    rdq (noteRead s i) j = rdq s j := rdq_congr (noteRead_buf s i) j

@[simp] theorem gtTest_noteRead (s : St) (i x limit : Int) :
    gtTest (noteRead s i) x limit = gtTest s x limit :=
  gtTest_congr (noteRead_buf s i) x limit

/-- A successful `array[k] % n > limit` test bounds `k` and `limit`. -/
theorem gtTest_dom {s : St} {k limit : Int} (h : gtTest s k limit = true) :
    0 ≤ k ∧ k < (s.buf.size : Int) ∧ limit ≤ (s.buf.size : Int) - 2 := by
  unfold gtTest rdq at h
  by_cases hk : 0 ≤ k
  · simp only [if_pos hk] at h
    rcases hv : s.buf[k.toNat]? with - | v
    · rw [hv] at h; simp at h
    · rw [hv] at h
      simp only [decide_eq_true_eq] at h
      have hsz : k.toNat < s.buf.size := by
        by_contra hge
        rw [Array.getElem?_eq_none_iff.mpr (by omega)] at hv
        exact Option.noConfusion hv
      have hn : 0 < s.buf.size := by omega
      have hmod : v % s.buf.size < s.buf.size := Nat.mod_lt _ hn
      refine ⟨hk, ?_, ?_⟩
      · omega
      · omega
  · simp only [if_neg hk] at h; simp at h

/-- Midpoint bounds for `(i + k) >> 1`. -/
theorem fdiv2_between {i k : Int} (h1 : i + 1 < k) (h0 : 0 ≤ i + k) :
    i + 1 ≤ Int.fdiv (i + k) 2 ∧ Int.fdiv (i + k) 2 ≤ k - 1 := by
  obtain ⟨m, hm⟩ := Int.eq_ofNat_of_zero_le h0
  have hred : Int.fdiv (i + k) 2 = ((m / 2 : Nat) : Int) := by
    rw [hm]
    cases m with
    | zero => rfl
    | succ m => rfl
  rw [hred]
  omega

/-- Correctness of the doubling search (first loop of `first`): on exit the
scan index `i` is `≤ limit` and fails the test (when still `≥ nodesToMove`),
and `k` is either the untouched sentinel `n - 2` or a probed satisfying
index in `[nodesToMove, limit]`. -/
theorem firstGallop_spec (ntm limit : Int) (hntm : 0 ≤ ntm) :
    ∀ (fuel : Nat) (s : St) (i k : Int),
      (0 ≤ i → i.toNat + 2 ≤ fuel) → (i < 0 → 1 ≤ fuel) → i ≤ limit →
      (k = (s.buf.size : Int) - 2 ∨
        (gtTest s k limit = true ∧ ntm ≤ k ∧ k ≤ limit)) →
      i ≤ k → (i = k → k = (s.buf.size : Int) - 2) →
      ∀ r, firstGallop ntm limit fuel s i k = r →
      r.1.buf = s.buf ∧ r.2.1 ≤ limit ∧
      (ntm ≤ r.2.1 → gtTest s r.2.1 limit = false) ∧
      (r.2.2 = (s.buf.size : Int) - 2 ∨
        (gtTest s r.2.2 limit = true ∧ ntm ≤ r.2.2 ∧ r.2.2 ≤ limit)) ∧
      r.2.1 ≤ r.2.2 ∧
      (r.2.1 = r.2.2 → r.2.2 = (s.buf.size : Int) - 2) := by
  intro fuel
  induction fuel with
  | zero =>
    intro s i k hf1 hf2 _ _ _ _ r _
    rcases lt_or_le i 0 with hi | hi
    · omega
    · have := hf1 hi; omega
  | succ fuel ih =>
    intro s i k hf1 hf2 hil hk hik hike r hr
    unfold firstGallop at hr
    by_cases hg : ntm ≤ i
    · rw [if_pos hg] at hr
      dsimp only at hr
      have hi0 : 0 ≤ i := le_trans hntm hg
      by_cases hp : gtTest s i limit = true
      · rw [show gtTest (noteRead s i) i limit = gtTest s i limit from
          gtTest_noteRead s i i limit, if_pos hp] at hr
        have hbuf : (noteRead s i).buf = s.buf := noteRead_buf s i
        have hlt : 2*i - limit - 1 ≤ i - 1 := by omega
        have hrec := ih (noteRead s i) (2*i - limit - 1) i
          (by intro h; have := hf1 hi0; omega)
          (by intro h; have := hf1 hi0; omega)
          (by omega)
          (Or.inr ⟨by rw [gtTest_congr hbuf]; exact hp, hg, hil⟩)
          (by omega) (by omega) r hr
        simpa only [gtTest_noteRead, noteRead_buf] using hrec
      · rw [show gtTest (noteRead s i) i limit = gtTest s i limit from
          gtTest_noteRead s i i limit, if_neg hp] at hr
        subst hr
        refine ⟨noteRead_buf s i, hil, fun _ => by simpa using hp,
          ?_, hik, ?_⟩
        · simpa only [gtTest_noteRead, noteRead_buf] using hk
        · simpa only [noteRead_buf] using hike
    · rw [if_neg hg] at hr
      subst hr
      exact ⟨rfl, hil, fun h => absurd h hg, hk, hik, hike⟩

/-- Correctness of the binary search (second loop of `first`): with the test
monotone on the pointer region, a bracket whose left part is all-false and
whose right part is all-true narrows to the least satisfying index. -/
theorem firstBisect_spec (s : St) (ntm limit : Int) (hntm : 0 ≤ ntm)
    (hmono : ∀ k1 k2 : Int, 0 ≤ k1 → k1 ≤ k2 → k2 ≤ (s.buf.size : Int) - 3 →
      gtTest s k1 limit = true → gtTest s k2 limit = true) :
    ∀ (fuel : Nat) (st : St) (i k : Int), st.buf = s.buf →
      (k - i).toNat ≤ fuel →
      ntm - 1 ≤ i → i < k → k ≤ (s.buf.size : Int) - 2 →
      (∀ j, ntm ≤ j → j ≤ i → gtTest s j limit = false) →
      (∀ j, k ≤ j → j ≤ limit → j ≤ (s.buf.size : Int) - 3 →
        gtTest s j limit = true) →
      ∀ r, firstBisect limit fuel st i k = r →
      r.1.buf = s.buf ∧ ntm ≤ r.2 ∧ r.2 ≤ (s.buf.size : Int) - 2 ∧
      (∀ j, ntm ≤ j → j < r.2 → gtTest s j limit = false) ∧
      (∀ j, r.2 ≤ j → j ≤ limit → j ≤ (s.buf.size : Int) - 3 →
        gtTest s j limit = true) := by
  intro fuel
  induction fuel with
  | zero =>
    intro st i k _ hf _ hik _ _ _ r _
    omega
  | succ fuel ih =>
    intro st i k hst hf hlo hik hkn hleft hright r hr
    unfold firstBisect at hr
    by_cases hcond : i + 1 < k
    · rw [if_pos hcond] at hr
      dsimp only at hr
      have hmid := fdiv2_between hcond (by omega)
      have hnb : (noteRead st (Int.fdiv (i + k) 2)).buf = s.buf := by
        rw [noteRead_buf, hst]
      rw [show gtTest (noteRead st (Int.fdiv (i + k) 2)) (Int.fdiv (i + k) 2)
            limit = gtTest s (Int.fdiv (i + k) 2) limit from
          gtTest_congr hnb _ _] at hr
      by_cases hp : gtTest s (Int.fdiv (i + k) 2) limit = true
      · rw [if_pos hp] at hr
        exact ih (noteRead st (Int.fdiv (i + k) 2)) i (Int.fdiv (i + k) 2)
          hnb (by omega) hlo (by omega) (by omega) hleft
          (fun j hj1 hj2 hj3 => hmono _ j (by omega) hj1 hj3 hp) r hr
      · rw [if_neg hp] at hr
        refine ih (noteRead st (Int.fdiv (i + k) 2)) (Int.fdiv (i + k) 2) k
          hnb (by omega) (by omega) (by omega) hkn ?_ hright r hr
        intro j hj1 hj2
        by_cases hji : j ≤ i
        · exact hleft j hj1 hji
        · cases hgt : gtTest s j limit with
          | false => rfl
          | true =>
            exact absurd (hmono j _ (by omega) (by omega) (by omega) hgt) hp
    · rw [if_neg hcond] at hr
      subst hr
      have hk1 : k = i + 1 := by omega
      refine ⟨hst, by omega, hkn, ?_, hright⟩
      intro j hj1 hj2
      exact hleft j hj1 (by omega)

/-- Abstract correctness of `first`: when the decoded test is monotone on the
pointer region `[0, n-3]` (as it is after pass 1), bounded there, and some
index in `[nodesToMove, i]` satisfies it, `first` returns the least one. -/
theorem first_isLeast (s : St) (ntm limit : Int) (hntm : 0 ≤ ntm)
    (hmono : ∀ k1 k2 : Int, 0 ≤ k1 → k1 ≤ k2 → k2 ≤ (s.buf.size : Int) - 3 →
      gtTest s k1 limit = true → gtTest s k2 limit = true)
    (hbound : ∀ k : Int, 0 ≤ k → k ≤ (s.buf.size : Int) - 3 →
      gtTest s k limit = true → limit < (s.buf.size : Int) - 2)
    (hex : ∃ t : Int, ntm ≤ t ∧ t ≤ limit ∧ gtTest s t limit = true) :
    IsLeast {k : Int | ntm ≤ k ∧ k ≤ limit ∧ gtTest s k limit = true}
      ((first s limit ntm).2) := by
  obtain ⟨t, ht1, ht2, ht3⟩ := hex
  obtain ⟨ht0, htn, hlim2⟩ := gtTest_dom ht3
  have hlim0 : 0 ≤ limit := le_trans (le_trans hntm ht1) ht2
  have hsz : s.size = (s.buf.size : Int) := rfl
  obtain ⟨g, hg⟩ : ∃ g, firstGallop ntm limit (limit.toNat + 2) s limit
      (s.size - 2) = g := ⟨_, rfl⟩
  obtain ⟨hgb, hgi, hgfail, hgk, hgik, hgike⟩ :=
    firstGallop_spec ntm limit hntm (limit.toNat + 2) s limit (s.size - 2)
      (fun _ => le_refl _) (by omega) (le_refl _)
      (Or.inl (by rw [hsz])) (by rw [hsz]; omega)
      (fun h => by rw [hsz]) g hg
  -- a failing test at `n - 2` inside `[ntm, limit]` contradicts existence
  have hcorner : ∀ x : Int, ntm ≤ x → x ≤ limit →
      x = (s.buf.size : Int) - 2 → gtTest s x limit = false → False := by
    intro x hx1 hx2 hx3 hx4
    have hlimeq : limit = (s.buf.size : Int) - 2 := by omega
    rcases lt_or_le t ((s.buf.size : Int) - 2) with htlt | htge
    · have := hbound t ht0 (by omega) ht3
      omega
    · have hteq : t = x := by omega
      rw [hteq, hx4] at ht3
      exact Bool.noConfusion ht3
  have hntm2 : ntm ≤ (s.buf.size : Int) - 2 := by omega
  -- facts feeding the binary search
  have hA1 : ∀ j, ntm ≤ j → j ≤ max (ntm - 1) g.2.1 →
      gtTest s j limit = false := by
    intro j hj1 hj2
    have hjle : j ≤ g.2.1 := by
      rcases max_choice (ntm - 1) g.2.1 with h | h <;> omega
    have hfail := hgfail (by omega)
    cases hgt : gtTest s j limit with
    | false => rfl
    | true =>
      rcases le_or_lt g.2.1 ((s.buf.size : Int) - 3) with hle | hlt
      · rw [hmono j g.2.1 (by omega) hjle hle hgt] at hfail
        exact Bool.noConfusion hfail
      · exact (hcorner g.2.1 (by omega) hgi (by omega) hfail).elim
  have hA2 : max (ntm - 1) g.2.1 < g.2.2 := by
    have hm1 : ntm - 1 ≤ max (ntm - 1) g.2.1 := le_max_left _ _
    have hm2 : g.2.1 ≤ max (ntm - 1) g.2.1 := le_max_right _ _
    rcases max_choice (ntm - 1) g.2.1 with h | h
    · rcases hgk with hk | ⟨_, hk2, _⟩
      · omega
      · omega
    · rcases lt_or_eq_of_le hgik with hlt | heq
      · omega
      · have hke := hgike heq
        exfalso
        rcases hgk with _ | ⟨hkp, hk2, hk3⟩
        · -- k* is the sentinel `n - 2` and equals i*: failing corner
          exact hcorner g.2.1 (by omega) hgi (by omega)
            (by simpa using hgfail (by omega))
        · rw [← heq] at hkp
          rw [hgfail (by omega)] at hkp
          exact Bool.noConfusion hkp
  have hA3 : ∀ j, g.2.2 ≤ j → j ≤ limit → j ≤ (s.buf.size : Int) - 3 →
      gtTest s j limit = true := by
    intro j hj1 hj2 hj3
    rcases hgk with hk | ⟨hkp, hk2, _⟩
    · omega
    · exact hmono g.2.2 j (by omega) hj1 hj3 hkp
  have hA4 : g.2.2 ≤ (s.buf.size : Int) - 2 := by
    rcases hgk with hk | ⟨_, _, hk3⟩ <;> omega
  obtain ⟨r, hr⟩ : ∃ r, firstBisect limit
      ((g.2.2 - max (ntm - 1) g.2.1).toNat + 2) g.1 (max (ntm - 1) g.2.1)
      g.2.2 = r := ⟨_, rfl⟩
  obtain ⟨hrb, hr1, hr2, hrleft, hrright⟩ :=
    firstBisect_spec s ntm limit hntm hmono _ g.1 (max (ntm - 1) g.2.1) g.2.2
      hgb (by omega) (le_max_left _ _) hA2 hA4 hA1 hA3 r hr
  have hres : (first s limit ntm).2 = r.2 := by
    unfold first
    dsimp only
    rw [hg, hr]
  rw [hres]
  have hvt : r.2 ≤ t := by
    by_contra hgt
    rw [hrleft t ht1 (by omega)] at ht3
    exact Bool.noConfusion ht3
  have hPv : gtTest s r.2 limit = true := by
    rcases le_or_lt r.2 ((s.buf.size : Int) - 3) with hle | hlt
    · exact hrright r.2 (le_refl _) (by omega) hle
    · have hteq : t = r.2 := by omega
      rw [← hteq]; exact ht3
  constructor
  · exact ⟨hr1, by omega, hPv⟩
  · intro b hb
    obtain ⟨hb1, hb2, hb3⟩ := hb
    by_contra hgt
    rw [hrleft b hb1 (by omega)] at hb3
    exact Bool.noConfusion hb3

/-! ### The shape of pass-1 output: decoded parent pointers -/

/-- Decoded generation pointer of slot `j`: `array[j] % n`. -/
def pv (b : Array Nat) (j : Nat) : Nat := (b[j]?.getD 0) % b.size

theorem setD_oob (a : Array Nat) (i : Nat) (v : Nat) (h : a.size ≤ i) :
    a.setD i v = a := by
  unfold Array.setD
  rw [dif_neg (by omega)]

theorem getElem?_setD_ne (a : Array Nat) {i j : Nat} (v : Nat) (h : i ≠ j) :
    (a.setD i v)[j]? = a[j]? := by
  unfold Array.setD
  split
  · exact Array.getElem?_set_ne _ _ _ h
  · rfl

theorem getElem?_setD_self (a : Array Nat) {i : Nat} (v : Nat)
    (h : i < a.size) : (a.setD i v)[i]? = some v := by
  unfold Array.setD
  rw [dif_pos h]
  exact Array.getElem?_set_eq _ ⟨i, h⟩ v

theorem wr_buf_nonneg (s : St) (i : Nat) (v : Nat) :
    (wr s (i : Int) v).buf = s.buf.setD i v := by
  unfold wr
  rw [if_neg (by omega)]
  by_cases hi : (i : Int) < s.size
  · rw [if_pos hi]
    simp only [Int.toNat_ofNat]
  · rw [if_neg hi]
    have : s.buf.size ≤ i := by
      have hsz : s.size = (s.buf.size : Int) := rfl
      omega
    rw [setD_oob _ _ _ this]

/-- Case analysis for one consume step of pass 1: either the merged-node
queue is consumed (a pointer is written at `head`) or the leaf queue is
consumed (`top` advances and was in range). -/
theorem seppStep_spec (s : St) (h t p : Nat) (req : Bool) (pvv : Nat) :
    ((seppStep s h t p req pvv).1.buf = s.buf.setD h pvv ∧
      (seppStep s h t p req pvv).2.2 = (h + 1, p)) ∨
    ((seppStep s h t p req pvv).1.buf = s.buf ∧
      (seppStep s h t p req pvv).2.2 = (h, p + 1) ∧ p < s.buf.size) := by
  unfold seppStep
  dsimp only
  by_cases hc1 : p ≥ s.buf.size
  · rw [if_pos hc1]
    dsimp only
    rw [if_pos (rfl : (true : Bool) = true)]
    left
    constructor
    · show (wr (noteRead s (h : Int)) (h : Int) pvv).buf = s.buf.setD h pvv
      rw [wr_buf_nonneg]
      simp
    · rfl
  · rw [if_neg hc1]
    by_cases hc2 : (req && !(decide (h < t))) = true
    · rw [if_pos hc2]
      dsimp only
      rw [if_neg (show ¬((false : Bool) = true) by simp)]
      right
      refine ⟨?_, rfl, by omega⟩
      show (noteRead s (p : Int)).buf = s.buf
      simp
    · rw [if_neg hc2]
      dsimp only
      by_cases hc3 : ltTest (noteRead (noteRead s (h : Int)) (p : Int))
          (h : Int) (p : Int) = true
      · rw [if_pos hc3]
        dsimp only
        left
        constructor
        · show (wr (noteRead (noteRead (noteRead s (h : Int)) (p : Int))
              (h : Int)) (h : Int) pvv).buf = s.buf.setD h pvv
          rw [wr_buf_nonneg]
          simp
        · rfl
      · rw [if_neg hc3]
        dsimp only
        right
        refine ⟨?_, rfl, by omega⟩
        show (noteRead (noteRead (noteRead s (h : Int)) (p : Int))
            (p : Int)).buf = s.buf
        simp

/-- The second block's `headNode < tailNode` guard: with `top` in range and
`head` at or past `tail`, the leaf queue is consumed. -/
theorem seppStep_forced_leaf (s : St) (h t p : Nat) (pvv : Nat)
    (hge : t ≤ h) (hp : p < s.buf.size) :
    (seppStep s h t p true pvv).1.buf = s.buf ∧
    (seppStep s h t p true pvv).2.2 = (h, p + 1) := by
  unfold seppStep
  dsimp only
  rw [if_neg (show ¬(p ≥ s.buf.size) by omega),
    if_pos (show (true && !(decide (h < t))) = true by simp; omega)]
  dsimp only
  rw [if_neg (show ¬((false : Bool) = true) by simp)]
  refine ⟨?_, rfl⟩
  show (noteRead s (p : Int)).buf = s.buf
  simp

theorem pv_setD_ne (b : Array Nat) {i j : Nat} (v : Nat) (h : i ≠ j) :
    pv (b.setD i v) j = pv b j := by
  unfold pv
  rw [getElem?_setD_ne _ _ h, Array.size_setD]

theorem pv_setD_self (b : Array Nat) {i : Nat} (v : Nat) (h : i < b.size) :
    pv (b.setD i v) i = v % b.size := by
  unfold pv
  rw [getElem?_setD_self _ _ h, Array.size_setD]
  rfl

/-- Assembling the pass-1 invariant for the next iteration: the pointer
facts survive the weight write at `tail` and extend over the slots written
this iteration (all holding decoded value `tail`). -/
theorem inv_step_assemble (sbuf B : Array Nat) (v head head2 tail : Nat)
    (hpvB : ∀ j, j < head2 → pv B j = if j < head then pv sbuf j else tail)
    (hI4 : ∀ j, j < head → j < pv sbuf j ∧ pv sbuf j + 1 ≤ tail)
    (hI5 : ∀ j1 j2, j1 ≤ j2 → j2 < head → pv sbuf j1 ≤ pv sbuf j2)
    (hht : head2 ≤ tail)
    (hlt : ∀ j, head ≤ j → j < head2 → j < tail) :
    (∀ j, j < head2 →
      j < pv (B.setD tail v) j ∧ pv (B.setD tail v) j + 1 ≤ tail + 1) ∧
    (∀ j1 j2, j1 ≤ j2 → j2 < head2 →
      pv (B.setD tail v) j1 ≤ pv (B.setD tail v) j2) := by
  have hpv : ∀ j, j < head2 →
      pv (B.setD tail v) j = if j < head then pv sbuf j else tail := by
    intro j hj
    rw [pv_setD_ne _ _ (by omega : tail ≠ j)]
    exact hpvB j hj
  constructor
  · intro j hj
    rw [hpv j hj]
    by_cases hjh : j < head
    · rw [if_pos hjh]
      exact ⟨(hI4 j hjh).1, by have := (hI4 j hjh).2; omega⟩
    · rw [if_neg hjh]
      exact ⟨hlt j (by omega) hj, by omega⟩
  · intro j1 j2 h12 hj2
    rw [hpv j1 (by omega), hpv j2 hj2]
    by_cases h1h : j1 < head <;> by_cases h2h : j2 < head
    · rw [if_pos h1h, if_pos h2h]
      exact hI5 j1 j2 h12 h2h
    · rw [if_pos h1h, if_neg h2h]
      have := (hI4 j1 h1h).2
      omega
    · omega
    · rw [if_neg h1h, if_neg h2h]

/-! ### Bounded-access facts (claim C5, amended) -/

theorem rdq_isSome {s : St} {i : Int} (h0 : 0 ≤ i)
    (hlt : i < (s.buf.size : Int)) : (rdq s i).isSome := by
  unfold rdq
  rw [if_pos h0]
  have : i.toNat < s.buf.size := by omega
  simp [Array.getElem?_eq_getElem this]

theorem noteRead_inb {s : St} {i : Int} (h0 : 0 ≤ i)
    (hlt : i < (s.buf.size : Int)) : noteRead s i = s := by
  unfold noteRead
  rw [if_pos (rdq_isSome h0 hlt)]

@[simp] theorem wr_okRead (s : St) (i : Int) (v : Nat) :
    (wr s i v).okRead = s.okRead := by
  unfold wr; split
  · rfl
  · split <;> rfl

theorem wr_okHigh {s : St} {i : Int} (v : Nat) (h : i < (s.buf.size : Int)) :
    (wr s i v).okWriteHigh = s.okWriteHigh := by
  unfold wr
  have hsz : s.size = (s.buf.size : Int) := rfl
  split
  · rfl
  · rw [if_pos (by omega)]

/-- Flag preservation and result bounds for the doubling search: all its
reads stay inside the buffer when `0 ≤ nodesToMove` and `limit ≤ n - 1`. -/
theorem firstGallop_flags (ntm limit : Int) (hntm : 0 ≤ ntm) :
    ∀ (fuel : Nat) (s : St) (i k : Int),
      limit ≤ (s.buf.size : Int) - 1 → i ≤ limit →
      k ≤ (s.buf.size : Int) - 1 → 0 ≤ k →
      ∀ r, firstGallop ntm limit fuel s i k = r →
      r.1 = s ∧ r.2.1 ≤ limit ∧ 0 ≤ r.2.2 ∧ r.2.2 ≤ (s.buf.size : Int) - 1 := by
  intro fuel
  induction fuel with
  | zero =>
    intro s i k _ hil hk hk0 r hr
    rw [show firstGallop ntm limit 0 s i k = (s, i, k) from rfl] at hr
    subst hr
    exact ⟨rfl, hil, hk0, hk⟩
  | succ fuel ih =>
    intro s i k hlim hil hk hk0 r hr
    unfold firstGallop at hr
    by_cases hg : ntm ≤ i
    · rw [if_pos hg] at hr
      dsimp only at hr
      have hread : noteRead s i = s := noteRead_inb (by omega) (by omega)
      rw [hread] at hr
      by_cases hp : gtTest s i limit = true
      · rw [if_pos hp] at hr
        exact ih s (2*i - limit - 1) i hlim (by omega) (by omega) (by omega)
          r hr
      · rw [if_neg hp] at hr
        subst hr
        exact ⟨rfl, hil, hk0, hk⟩
    · rw [if_neg hg] at hr
      subst hr
      exact ⟨rfl, hil, hk0, hk⟩

/-- Flag preservation and result bounds for the binary search. -/
theorem firstBisect_flags (limit : Int) :
    ∀ (fuel : Nat) (s : St) (i k : Int),
      -1 ≤ i → 0 ≤ k → k ≤ (s.buf.size : Int) - 1 →
      ∀ r, firstBisect limit fuel s i k = r →
      r.1 = s ∧ 0 ≤ r.2 ∧ r.2 ≤ (s.buf.size : Int) - 1 := by
  intro fuel
  induction fuel with
  | zero =>
    intro s i k _ hk0 hk r hr
    rw [show firstBisect limit 0 s i k = (s, k) from rfl] at hr
    subst hr
    exact ⟨rfl, hk0, hk⟩
  | succ fuel ih =>
    intro s i k hi0 hk0 hk r hr
    unfold firstBisect at hr
    by_cases hcond : i + 1 < k
    · rw [if_pos hcond] at hr
      dsimp only at hr
      have hmid := fdiv2_between hcond (by omega)
      have hread : noteRead s (Int.fdiv (i + k) 2) = s :=
        noteRead_inb (by omega) (by omega)
      rw [hread] at hr
      by_cases hp : gtTest s (Int.fdiv (i + k) 2) limit = true
      · rw [if_pos hp] at hr
        exact ih s i (Int.fdiv (i + k) 2) hi0 (by omega) (by omega) r hr
      · rw [if_neg hp] at hr
        exact ih s (Int.fdiv (i + k) 2) k (by omega) hk0 hk r hr
    · rw [if_neg hcond] at hr
      subst hr
      exact ⟨rfl, hk0, hk⟩

/-- `first` reads only inside the buffer and returns an index in
`[0, n-1]`, provided `nodesToMove ≥ 0`, `i ≤ n - 1` and `n ≥ 2`. -/
theorem first_flags (s : St) (i ntm : Int) (hntm : 0 ≤ ntm)
    (hi : i ≤ (s.buf.size : Int) - 1) (hn : 2 ≤ s.buf.size) :
    (first s i ntm).1 = s ∧ 0 ≤ (first s i ntm).2 ∧
      (first s i ntm).2 ≤ (s.buf.size : Int) - 1 := by
  have hsz : s.size = (s.buf.size : Int) := rfl
  obtain ⟨g, hg⟩ : ∃ g, firstGallop ntm i (i.toNat + 2) s i (s.size - 2) = g :=
    ⟨_, rfl⟩
  obtain ⟨hg1, hg2, hg3, hg4⟩ := firstGallop_flags ntm i hntm (i.toNat + 2)
    s i (s.size - 2) hi (le_refl _) (by omega) (by omega) g hg
  obtain ⟨r, hr⟩ : ∃ r, firstBisect i ((g.2.2 - max (ntm - 1) g.2.1).toNat + 2)
      g.1 (max (ntm - 1) g.2.1) g.2.2 = r := ⟨_, rfl⟩
  obtain ⟨hr1, hr2, hr3⟩ := firstBisect_flags i _ g.1 (max (ntm - 1) g.2.1)
    g.2.2 (le_trans (by omega) (le_max_left _ _)) hg3 (by rw [hg1]; exact hg4)
    r hr
  have hres : first s i ntm = r := by
    unfold first
    dsimp only
    rw [hg, hr]
  rw [hg1] at hr1 hr3
  rw [hres]
  exact ⟨hr1, hr2, hr3⟩

/-- All accesses of one pass-1 consume step stay inside the buffer provided
`head` does (`top` is range-checked by the step's own guards). -/
theorem seppStep_flags (s : St) (h t p : Nat) (req : Bool) (pvv : Nat)
    (hh : h < s.buf.size) :
    (seppStep s h t p req pvv).1.okRead = s.okRead ∧
    (seppStep s h t p req pvv).1.okWriteHigh = s.okWriteHigh ∧
    (seppStep s h t p req pvv).1.buf.size = s.buf.size := by
  have hrh : noteRead s (h : Int) = s := noteRead_inb (by omega) (by omega)
  unfold seppStep
  dsimp only
  by_cases hc1 : p ≥ s.buf.size
  · rw [if_pos hc1]
    dsimp only
    rw [if_pos (rfl : (true : Bool) = true), hrh]
    refine ⟨by rw [wr_okRead], ?_, by rw [wr_size]⟩
    rw [wr_okHigh _ (by omega)]
  · have hrp : noteRead s (p : Int) = s := noteRead_inb (by omega) (by omega)
    rw [if_neg hc1]
    by_cases hc2 : (req && !(decide (h < t))) = true
    · rw [if_pos hc2]
      dsimp only
      rw [if_neg (show ¬((false : Bool) = true) by simp), hrp]
      exact ⟨rfl, rfl, rfl⟩
    · rw [if_neg hc2]
      dsimp only
      rw [hrh, hrp]
      by_cases hc3 : ltTest s (h : Int) (p : Int) = true
      · rw [if_pos hc3]
        dsimp only
        rw [hrh]
        refine ⟨by rw [wr_okRead], ?_, by rw [wr_size]⟩
        rw [wr_okHigh _ (by omega)]
      · rw [if_neg hc3]
        dsimp only
        rw [hrp]
        exact ⟨rfl, rfl, rfl⟩

/-- Pass-1 loop invariant: with the bookkeeping identity `head + top = 2·tail`
and `tail + 1 ≤ top ≤ n`, the slots below `head` hold parent pointers that
decode strictly above their own slot, stay below `tail`, and are
non-decreasing.  At exit (`tail = n - 1`) the pointer region is `[0, n-3]`
with decoded values at most `n - 2`.  The argument is purely structural: no
ordering of the weights is needed.  All accesses stay inside the buffer, so
the `okRead` and `okWriteHigh` flags are preserved. -/
theorem seppLoop_inv (n : Nat) :
    ∀ (fuel : Nat) (s : St) (head tail top : Nat),
      s.buf.size = n → n ≤ tail + fuel + 1 →
      head + top = 2 * tail →
      tail + 1 ≤ top → top ≤ n → 1 ≤ tail → tail + 1 ≤ n →
      (∀ j, j < head → j < pv s.buf j ∧ pv s.buf j + 1 ≤ tail) →
      (∀ j1 j2, j1 ≤ j2 → j2 < head → pv s.buf j1 ≤ pv s.buf j2) →
      ∀ r, seppLoop fuel s head tail top = r →
      r.buf.size = n ∧
      (∀ j, j + 2 < n → j < pv r.buf j ∧ pv r.buf j ≤ n - 2) ∧
      (∀ j1 j2, j1 ≤ j2 → j2 + 2 < n → pv r.buf j1 ≤ pv r.buf j2) ∧
      r.okRead = s.okRead ∧ r.okWriteHigh = s.okWriteHigh := by
  intro fuel
  induction fuel with
  | zero =>
    intro s head tail top hsz hfuel hI1 hI2a hI2b hI3a hI3b hI4 hI5 r hr
    rw [show seppLoop 0 s head tail top = s from rfl] at hr
    subst hr
    have htail : tail + 1 = n := by omega
    refine ⟨hsz, ?_, ?_, rfl, rfl⟩
    · intro j hj
      have hjh : j < head := by omega
      obtain ⟨h1, h2⟩ := hI4 j hjh
      exact ⟨h1, by omega⟩
    · intro j1 j2 h12 hj2
      exact hI5 j1 j2 h12 (by omega)
  | succ fuel ih =>
    intro s head tail top hsz hfuel hI1 hI2a hI2b hI3a hI3b hI4 hI5 r hr
    unfold seppLoop at hr
    by_cases hin : tail + 1 < s.buf.size
    · rw [if_pos hin] at hr
      dsimp only at hr
      have hinn : tail + 1 < n := by omega
      have hheadlt : head + 1 ≤ tail := by omega
      have hfl1 := seppStep_flags s head tail top false tail (by omega)
      rcases seppStep_spec s head tail top false tail with
        ⟨hb1, he1⟩ | ⟨hb1, he1, hp1⟩
      · -- block 1 consumed the merged-node queue: pointer `tail` at `head`
        have hh1 : (seppStep s head tail top false tail).2.2.1 = head + 1 := by
          rw [he1]
        have ht1 : (seppStep s head tail top false tail).2.2.2 = top := by
          rw [he1]
        have hbs1 : (seppStep s head tail top false tail).1.buf.size = n := by
          rw [hb1]; simp [hsz]
        rw [hh1, ht1, hbs1] at hr
        have hfl2 := seppStep_flags (seppStep s head tail top false tail).1
          (head + 1) tail top true (tail + n) (by omega)
        have hwlt : ((tail : Nat) : Int) <
            (((seppStep (seppStep s head tail top false tail).1 (head + 1)
              tail top true (tail + n)).1.buf.size : Nat) : Int) := by
          rw [hfl2.2.2, hbs1]; omega
        by_cases hb : head + 1 < tail
        · -- block 2 free case
          rcases seppStep_spec (seppStep s head tail top false tail).1
              (head + 1) tail top true (tail + n) with
            ⟨hb2, he2⟩ | ⟨hb2, he2, hp2⟩
          · -- 1a-ptr: second pointer `tail + n` at `head + 1`
            have hh2 : (seppStep (seppStep s head tail top false tail).1
                (head + 1) tail top true (tail + n)).2.2.1 = head + 2 := by
              rw [he2]
            have ht2 : (seppStep (seppStep s head tail top false tail).1
                (head + 1) tail top true (tail + n)).2.2.2 = top := by
              rw [he2]
            rw [hh2, ht2] at hr
            rw [hb1] at hb2
            have hB : ((seppStep (seppStep s head tail top false tail).1
                (head + 1) tail top true (tail + n)).1).buf
                = (s.buf.setD head tail).setD (head + 1) (tail + n) := hb2
            have hpvB : ∀ j, j < head + 2 →
                pv ((s.buf.setD head tail).setD (head + 1) (tail + n)) j
                  = if j < head then pv s.buf j else tail := by
              intro j hj
              by_cases hj1 : j = head + 1
              · subst hj1
                rw [pv_setD_self _ _ (by simp [hsz]; omega)]
                rw [if_neg (by omega)]
                simp only [Array.size_setD, hsz]
                rw [Nat.add_mod_right, Nat.mod_eq_of_lt (by omega)]
              · rw [pv_setD_ne _ _ (by omega : head + 1 ≠ j)]
                by_cases hj0 : j = head
                · subst hj0
                  rw [pv_setD_self _ _ (by rw [hsz]; omega)]
                  rw [if_neg (by omega), hsz, Nat.mod_eq_of_lt (by omega)]
                · rw [pv_setD_ne _ _ (by omega : head ≠ j),
                    if_pos (by omega)]
            obtain ⟨hI4', hI5'⟩ := inv_step_assemble s.buf _ _ head (head + 2)
              tail hpvB hI4 hI5 (by omega) (fun j h1 h2 => by omega)
            obtain ⟨hc1, hc2, hc3, hcR, hcH⟩ := ih _ _ _ _
              (by rw [wr_buf_nonneg, hB]; simp [hsz]) (by omega) (by omega)
              (by omega) (by omega) (by omega) (by omega)
              (by rw [wr_buf_nonneg, hB]; exact hI4')
              (by rw [wr_buf_nonneg, hB]; exact hI5') r hr
            refine ⟨hc1, hc2, hc3, ?_, ?_⟩
            · rw [hcR, wr_okRead, hfl2.1, hfl1.1]
            · rw [hcH, wr_okHigh _ hwlt, hfl2.2.1, hfl1.2.1]
          · -- 1a-leaf
            have hh2 : (seppStep (seppStep s head tail top false tail).1
                (head + 1) tail top true (tail + n)).2.2.1 = head + 1 := by
              rw [he2]
            have ht2 : (seppStep (seppStep s head tail top false tail).1
                (head + 1) tail top true (tail + n)).2.2.2 = top + 1 := by
              rw [he2]
            rw [hh2, ht2] at hr
            rw [hb1] at hb2
            rw [hbs1] at hp2
            have hpvB : ∀ j, j < head + 1 →
                pv (s.buf.setD head tail) j
                  = if j < head then pv s.buf j else tail := by
              intro j hj
              by_cases hj0 : j = head
              · subst hj0
                rw [pv_setD_self _ _ (by rw [hsz]; omega)]
                rw [if_neg (by omega), hsz, Nat.mod_eq_of_lt (by omega)]
              · rw [pv_setD_ne _ _ (by omega : head ≠ j), if_pos (by omega)]
            obtain ⟨hI4', hI5'⟩ := inv_step_assemble s.buf _ _ head (head + 1)
              tail hpvB hI4 hI5 (by omega) (fun j h1 h2 => by omega)
            obtain ⟨hc1, hc2, hc3, hcR, hcH⟩ := ih _ _ _ _
              (by rw [wr_buf_nonneg, hb2]; simp [hsz]) (by omega) (by omega)
              (by omega) (by omega) (by omega) (by omega)
              (by rw [wr_buf_nonneg, hb2]; exact hI4')
              (by rw [wr_buf_nonneg, hb2]; exact hI5') r hr
            refine ⟨hc1, hc2, hc3, ?_, ?_⟩
            · rw [hcR, wr_okRead, hfl2.1, hfl1.1]
            · rw [hcH, wr_okHigh _ hwlt, hfl2.2.1, hfl1.2.1]
        · -- 1b: `head + 1 = tail`, the guard forces the leaf queue
          have hbeq : head + 1 = tail := by omega
          have htopn : top < (seppStep s head tail top false tail).1.buf.size := by
            rw [hbs1]; omega
          obtain ⟨hb2, he2⟩ := seppStep_forced_leaf
            (seppStep s head tail top false tail).1 (head + 1) tail top
            (tail + n) (by omega) htopn
          have hh2 : (seppStep (seppStep s head tail top false tail).1
              (head + 1) tail top true (tail + n)).2.2.1 = head + 1 := by
            rw [he2]
          have ht2 : (seppStep (seppStep s head tail top false tail).1
              (head + 1) tail top true (tail + n)).2.2.2 = top + 1 := by
            rw [he2]
          rw [hh2, ht2] at hr
          rw [hb1] at hb2
          have hpvB : ∀ j, j < head + 1 →
              pv (s.buf.setD head tail) j
                = if j < head then pv s.buf j else tail := by
            intro j hj
            by_cases hj0 : j = head
            · subst hj0
              rw [pv_setD_self _ _ (by rw [hsz]; omega)]
              rw [if_neg (by omega), hsz, Nat.mod_eq_of_lt (by omega)]
            · rw [pv_setD_ne _ _ (by omega : head ≠ j), if_pos (by omega)]
          obtain ⟨hI4', hI5'⟩ := inv_step_assemble s.buf _ _ head (head + 1)
            tail hpvB hI4 hI5 (by omega) (fun j h1 h2 => by omega)
          obtain ⟨hc1, hc2, hc3, hcR, hcH⟩ := ih _ _ _ _
            (by rw [wr_buf_nonneg, hb2]; simp [hsz]) (by omega) (by omega)
            (by omega) (by omega) (by omega) (by omega)
            (by rw [wr_buf_nonneg, hb2]; exact hI4')
            (by rw [wr_buf_nonneg, hb2]; exact hI5') r hr
          refine ⟨hc1, hc2, hc3, ?_, ?_⟩
          · rw [hcR, wr_okRead, hfl2.1, hfl1.1]
          · rw [hcH, wr_okHigh _ hwlt, hfl2.2.1, hfl1.2.1]
      · -- block 1 consumed the leaf queue
        have hh1 : (seppStep s head tail top false tail).2.2.1 = head := by
          rw [he1]
        have ht1 : (seppStep s head tail top false tail).2.2.2 = top + 1 := by
          rw [he1]
        have hbs1 : (seppStep s head tail top false tail).1.buf.size = n := by
          rw [hb1]; exact hsz
        rw [hh1, ht1, hbs1] at hr
        rw [hsz] at hp1
        have hfl2 := seppStep_flags (seppStep s head tail top false tail).1
          head tail (top + 1) true (tail + n) (by omega)
        have hwlt : ((tail : Nat) : Int) <
            (((seppStep (seppStep s head tail top false tail).1 head
              tail (top + 1) true (tail + n)).1.buf.size : Nat) : Int) := by
          rw [hfl2.2.2, hbs1]; omega
        rcases seppStep_spec (seppStep s head tail top false tail).1
            head tail (top + 1) true (tail + n) with
          ⟨hb2, he2⟩ | ⟨hb2, he2, hp2⟩
        · -- 2a-ptr: pointer `tail + n` at `head`
          have hh2 : (seppStep (seppStep s head tail top false tail).1
              head tail (top + 1) true (tail + n)).2.2.1 = head + 1 := by
            rw [he2]
          have ht2 : (seppStep (seppStep s head tail top false tail).1
              head tail (top + 1) true (tail + n)).2.2.2 = top + 1 := by
            rw [he2]
          rw [hh2, ht2] at hr
          rw [hb1] at hb2
          have hpvB : ∀ j, j < head + 1 →
              pv (s.buf.setD head (tail + n)) j
                = if j < head then pv s.buf j else tail := by
            intro j hj
            by_cases hj0 : j = head
            · subst hj0
              rw [pv_setD_self _ _ (by rw [hsz]; omega)]
              rw [if_neg (by omega), hsz]
              rw [Nat.add_mod_right, Nat.mod_eq_of_lt (by omega)]
            · rw [pv_setD_ne _ _ (by omega : head ≠ j), if_pos (by omega)]
          obtain ⟨hI4', hI5'⟩ := inv_step_assemble s.buf _ _ head (head + 1)
            tail hpvB hI4 hI5 (by omega) (fun j h1 h2 => by omega)
          obtain ⟨hc1, hc2, hc3, hcR, hcH⟩ := ih _ _ _ _
            (by rw [wr_buf_nonneg, hb2]; simp [hsz]) (by omega) (by omega)
            (by omega) (by omega) (by omega) (by omega)
            (by rw [wr_buf_nonneg, hb2]; exact hI4')
            (by rw [wr_buf_nonneg, hb2]; exact hI5') r hr
          refine ⟨hc1, hc2, hc3, ?_, ?_⟩
          · rw [hcR, wr_okRead, hfl2.1, hfl1.1]
          · rw [hcH, wr_okHigh _ hwlt, hfl2.2.1, hfl1.2.1]
        · -- 2a-leaf
          have hh2 : (seppStep (seppStep s head tail top false tail).1
              head tail (top + 1) true (tail + n)).2.2.1 = head := by
            rw [he2]
          have ht2 : (seppStep (seppStep s head tail top false tail).1
              head tail (top + 1) true (tail + n)).2.2.2 = top + 2 := by
            rw [he2]
          rw [hh2, ht2] at hr
          rw [hb1] at hb2
          rw [hbs1] at hp2
          have hpvB : ∀ j, j < head →
              pv s.buf j = if j < head then pv s.buf j else tail := by
            intro j hj
            rw [if_pos hj]
          obtain ⟨hI4', hI5'⟩ := inv_step_assemble s.buf _ _ head head
            tail hpvB hI4 hI5 (by omega) (fun j h1 h2 => by omega)
          obtain ⟨hc1, hc2, hc3, hcR, hcH⟩ := ih _ _ _ _
            (by rw [wr_buf_nonneg, hb2]; simp [hsz]) (by omega) (by omega)
            (by omega) (by omega) (by omega) (by omega)
            (by rw [wr_buf_nonneg, hb2]; exact hI4')
            (by rw [wr_buf_nonneg, hb2]; exact hI5') r hr
          refine ⟨hc1, hc2, hc3, ?_, ?_⟩
          · rw [hcR, wr_okRead, hfl2.1, hfl1.1]
          · rw [hcH, wr_okHigh _ hwlt, hfl2.2.1, hfl1.2.1]
    · rw [if_neg hin] at hr
      subst hr
      have htail : tail + 1 = n := by omega
      refine ⟨hsz, ?_, ?_, rfl, rfl⟩
      · intro j hj
        have hjh : j < head := by omega
        obtain ⟨h1, h2⟩ := hI4 j hjh
        exact ⟨h1, by omega⟩
      · intro j1 j2 h12 hj2
        exact hI5 j1 j2 h12 (by omega)

theorem wr_buf_nonneg' (s : St) (i : Int) (v : Nat) (h : 0 ≤ i) :
    (wr s i v).buf = s.buf.setD i.toNat v := by
  unfold wr
  rw [if_neg (by omega)]
  by_cases hi : i < s.size
  · rw [if_pos hi]
  · rw [if_neg hi]
    have hsz : s.size = (s.buf.size : Int) := rfl
    rw [setD_oob _ _ _ (by omega)]

/-- Pass-1 output shape: on a buffer of `n ≥ 3` frequencies, slots `0..n-3`
hold extended parent pointers decoding to a value strictly above their own
index, at most `n - 2`, and non-decreasing along the buffer. -/
theorem pass1_facts (a : Array Nat) (h3 : 3 ≤ a.size) :
    (setExtendedParentPointers { buf := a }).buf.size = a.size ∧
    (∀ j : Nat, j + 2 < a.size →
      j < pv (setExtendedParentPointers { buf := a }).buf j ∧
      pv (setExtendedParentPointers { buf := a }).buf j ≤ a.size - 2) ∧
    (∀ j1 j2 : Nat, j1 ≤ j2 → j2 + 2 < a.size →
      pv (setExtendedParentPointers { buf := a }).buf j1 ≤
        pv (setExtendedParentPointers { buf := a }).buf j2) ∧
    (setExtendedParentPointers { buf := a }).okRead = true ∧
    (setExtendedParentPointers { buf := a }).okWriteHigh = true := by
  obtain ⟨r, hr⟩ : ∃ r, setExtendedParentPointers { buf := a } = r := ⟨_, rfl⟩
  have hbody := hr
  unfold setExtendedParentPointers at hbody
  dsimp only at hbody
  have hs3buf : (wr (noteRead (noteRead { buf := a } 0) 1) 0
      (rdV (noteRead (noteRead { buf := a } 0) 1) 0 +
        rdV (noteRead (noteRead { buf := a } 0) 1) 1)).buf
      = a.setD 0 (rdV (noteRead (noteRead { buf := a } 0) 1) 0 +
        rdV (noteRead (noteRead { buf := a } 0) 1) 1) := by
    rw [wr_buf_nonneg' _ _ _ (by omega)]
    simp
  have hs3sz : (wr (noteRead (noteRead { buf := a } 0) 1) 0
      (rdV (noteRead (noteRead { buf := a } 0) 1) 0 +
        rdV (noteRead (noteRead { buf := a } 0) 1) 1)).buf.size = a.size := by
    rw [hs3buf]
    simp
  rw [hs3sz] at hbody
  obtain ⟨hrsz, hrbd, hrmn, hrR, hrH⟩ := seppLoop_inv a.size a.size _ 0 1 2
    hs3sz (by omega) (by omega) (by omega) (by omega) (by omega) (by omega)
    (by intro j hj; omega) (by intro j1 j2 h12 hj2; omega) r hbody
  have hn1 : noteRead ({ buf := a } : St) 0 = { buf := a } :=
    noteRead_inb (by omega) (by simp; omega)
  have hn2 : noteRead (noteRead ({ buf := a } : St) 0) 1
      = { buf := a } := by
    rw [hn1]
    exact noteRead_inb (by omega) (by simp; omega)
  rw [hn2] at hrR hrH
  rw [wr_okRead] at hrR
  rw [wr_okHigh _ (by simp; omega)] at hrH
  rw [hr]
  exact ⟨hrsz, hrbd, hrmn, hrR, hrH⟩

theorem gtTest_iff_pv (s : St) (k limit : Int) (h0 : 0 ≤ k)
    (hlt : k.toNat < s.buf.size) :
    gtTest s k limit = true ↔ limit < (pv s.buf k.toNat : Int) := by
  unfold gtTest rdq pv
  rw [if_pos h0, Array.getElem?_eq_getElem hlt]
  simp

/-- C4 amended: for every array in post-pass-1 extended-parent-pointer form
(the output of `setExtendedParentPointers` on a sorted buffer of `n ≥ 3`
frequencies), every node index `i`, and every `nodesToMove ≥ 0`, if some
index `k` with `nodesToMove ≤ k ≤ i` and `array[k] % n > i` exists, then
`first` returns the smallest such `k`. -/
theorem first_contract (f : Array Nat) (_hs : SortedAsc f) (h3 : 3 ≤ f.size)
    (i : Int) (ntm : Nat)
    (hex : ∃ k : Int, (ntm : Int) ≤ k ∧ k ≤ i ∧
      gtTest (setExtendedParentPointers { buf := f }) k i = true) :
    IsLeast {k : Int | (ntm : Int) ≤ k ∧ k ≤ i ∧
      gtTest (setExtendedParentPointers { buf := f }) k i = true}
      ((first (setExtendedParentPointers { buf := f }) i (ntm : Int)).2) := by
  obtain ⟨hsz, hbd, hmn, -, -⟩ := pass1_facts f h3
  apply first_isLeast (setExtendedParentPointers { buf := f }) (ntm : Int) i
    (by omega)
  · intro k1 k2 h0 h12 h2n hP
    have hn1 : k1.toNat < (setExtendedParentPointers { buf := f }).buf.size := by
      rw [hsz]; omega
    have hn2 : k2.toNat < (setExtendedParentPointers { buf := f }).buf.size := by
      rw [hsz]; omega
    rw [gtTest_iff_pv _ _ _ h0 hn1] at hP
    rw [gtTest_iff_pv _ _ _ (by omega) hn2]
    have hmono := hmn k1.toNat k2.toNat (by omega) (by rw [← hsz]; omega)
    omega
  · intro k h0 hkn hP
    have hn : k.toNat < (setExtendedParentPointers { buf := f }).buf.size := by
      rw [hsz]; omega
    rw [gtTest_iff_pv _ _ _ h0 hn] at hP
    have hb := (hbd k.toNat (by rw [← hsz]; omega)).2
    omega
  · exact hex

theorem first_contract_witness :
    SortedAsc #[6, 6, 12, 16] ∧ 3 ≤ (#[6, 6, 12, 16] : Array Nat).size ∧
    (∃ k : Int, ((0 : Nat) : Int) ≤ k ∧ k ≤ 1 ∧
      gtTest (setExtendedParentPointers { buf := #[6, 6, 12, 16] }) k 1 = true) ∧
    IsLeast {k : Int | ((0 : Nat) : Int) ≤ k ∧ k ≤ 1 ∧
      gtTest (setExtendedParentPointers { buf := #[6, 6, 12, 16] }) k 1 = true}
      ((first (setExtendedParentPointers { buf := #[6, 6, 12, 16] }) 1
        ((0 : Nat) : Int)).2) :=
  ⟨by decide, by decide, ⟨1, by decide, by decide, by decide⟩,
   first_contract #[6, 6, 12, 16] (by decide) (by decide) 1 0
     ⟨1, by decide, by decide, by decide⟩⟩

/-- Pass 2 reads only inside the buffer and returns a node in `[0, n-1]`. -/
theorem fntrLoop_flags (ml : Int) :
    ∀ (fuel : Nat) (s : St) (d c : Int),
      2 ≤ s.buf.size → 0 ≤ c → c ≤ (s.buf.size : Int) - 1 →
      ∀ r, fntrLoop ml fuel s d c = r →
      r.1 = s ∧ 0 ≤ r.2 ∧ r.2 ≤ (s.buf.size : Int) - 1 := by
  intro fuel
  induction fuel with
  | zero =>
    intro s d c _ hc0 hc r hr
    rw [show fntrLoop ml 0 s d c = (s, c) from rfl] at hr
    subst hr
    exact ⟨rfl, hc0, hc⟩
  | succ fuel ih =>
    intro s d c hn2 hc0 hc r hr
    unfold fntrLoop at hr
    by_cases hcond : d < ml - 1 ∧ 1 < c
    · rw [if_pos hcond] at hr
      dsimp only at hr
      obtain ⟨hf1, hf2, hf3⟩ := first_flags s (c - 1) 0 (le_refl _)
        (by omega) hn2
      rw [hf1] at hr
      exact ih s (d + 1) (first s (c - 1) 0).2 hn2 hf2 hf3 r hr
    · rw [if_neg hcond] at hr
      subst hr
      exact ⟨rfl, hc0, hc⟩

/-- The back-to-front write loop touches only indices `≤ n - 1`. -/
theorem writeRun_flags :
    ∀ (cnt : Nat) (s : St) (nextNode : Int) (d : Nat),
      nextNode ≤ (s.buf.size : Int) - 1 →
      (writeRun cnt s nextNode d).1.okRead = s.okRead ∧
      (writeRun cnt s nextNode d).1.okWriteHigh = s.okWriteHigh ∧
      (writeRun cnt s nextNode d).1.buf.size = s.buf.size ∧
      (writeRun cnt s nextNode d).2 ≤ nextNode := by
  intro cnt
  induction cnt with
  | zero =>
    intro s nextNode d _
    exact ⟨rfl, rfl, rfl, le_refl _⟩
  | succ cnt ih =>
    intro s nextNode d h
    have hsz : (wr s nextNode d).buf.size = s.buf.size := wr_size s nextNode d
    obtain ⟨ha, hb, hc, hd⟩ := ih (wr s nextNode d) (nextNode - 1) d
      (by rw [hsz]; omega)
    rw [show writeRun (cnt + 1) s nextNode d
      = writeRun cnt (wr s nextNode d) (nextNode - 1) d from rfl]
    refine ⟨?_, ?_, ?_, by omega⟩
    · rw [ha, wr_okRead]
    · rw [hb, wr_okHigh _ (by omega)]
    · rw [hc, hsz]

/-- The unlimited assigner reads only inside the buffer and writes only at
indices `≤ n - 1`. -/
theorem anlLoop_flags :
    ∀ (fuel : Nat) (s : St) (firstNode nextNode : Int) (depth : Nat)
      (avail : Int),
      2 ≤ s.buf.size → firstNode ≤ (s.buf.size : Int) →
      nextNode ≤ (s.buf.size : Int) - 1 →
      ∀ r, anlLoop fuel s firstNode nextNode depth avail = r →
      r.okRead = s.okRead ∧ r.okWriteHigh = s.okWriteHigh ∧
      r.buf.size = s.buf.size := by
  intro fuel
  induction fuel with
  | zero =>
    intro s firstNode nextNode depth avail _ _ _ r hr
    rw [show anlLoop 0 s firstNode nextNode depth avail = s from rfl] at hr
    subst hr
    exact ⟨rfl, rfl, rfl⟩
  | succ fuel ih =>
    intro s firstNode nextNode depth avail hn2 hfn hnx r hr
    unfold anlLoop at hr
    by_cases hcond : 0 < avail
    · rw [if_pos hcond] at hr
      dsimp only at hr
      obtain ⟨hf1, hf2, hf3⟩ := first_flags s (firstNode - 1) 0 (le_refl _)
        (by omega) hn2
      rw [hf1] at hr
      obtain ⟨hwa, hwb, hwc, hwd⟩ := writeRun_flags
        (avail - (firstNode - (first s (firstNode - 1) 0).2)).toNat s nextNode
        depth hnx
      obtain ⟨hia, hib, hic⟩ := ih _ _ _ _ _ (by rw [hwc]; exact hn2)
        (by rw [hwc]; omega) (by rw [hwc]; omega) r hr
      exact ⟨by rw [hia, hwa], by rw [hib, hwb], by rw [hic, hwc]⟩
    · rw [if_neg hcond] at hr
      subst hr
      exact ⟨rfl, rfl, rfl⟩

/-- The relocating assigner reads only inside the buffer and writes only at
indices `≤ n - 1`, provided `nodesToMove ≥ 0`.  The `firstNode` cursor can
reach `n` (after the `insertDepth - 1` adjustment), but it is only
dereferenced while the walk is still above `insertDepth`, where it is at
most `n - 1`. -/
theorem anlrLoop_flags (nodesToMove insertDepth : Int)
    (hntm : 0 ≤ nodesToMove) :
    ∀ (fuel : Nat) (s : St) (firstNode nextNode currentDepth nodesLeftToMove
      avail : Int),
      2 ≤ s.buf.size →
      0 ≤ firstNode → firstNode ≤ (s.buf.size : Int) →
      (currentDepth < insertDepth → firstNode ≤ (s.buf.size : Int) - 1) →
      nextNode ≤ (s.buf.size : Int) - 1 →
      ∀ r, anlrLoop nodesToMove insertDepth fuel s firstNode nextNode
        currentDepth nodesLeftToMove avail = r →
      r.okRead = s.okRead ∧ r.okWriteHigh = s.okWriteHigh ∧
      r.buf.size = s.buf.size := by
  intro fuel
  induction fuel with
  | zero =>
    intro s firstNode nextNode currentDepth nodesLeftToMove avail _ _ _ _ _
      r hr
    rw [show anlrLoop nodesToMove insertDepth 0 s firstNode nextNode
      currentDepth nodesLeftToMove avail = s from rfl] at hr
    subst hr
    exact ⟨rfl, rfl, rfl⟩
  | succ fuel ih =>
    intro s firstNode nextNode currentDepth nodesLeftToMove avail hn2 hf0
      hfn hfd hnx r hr
    unfold anlrLoop at hr
    by_cases hcond : 0 < avail
    · rw [if_pos hcond] at hr
      dsimp only at hr
      by_cases hfz : firstNode ≤ nodesToMove
      · rw [if_pos hfz] at hr
        dsimp only at hr
        by_cases hq1 : insertDepth ≤ currentDepth
        · rw [if_pos hq1] at hr
          dsimp only at hr
          obtain ⟨hwa, hwb, hwc, hwd⟩ := writeRun_flags
            (avail - (firstNode - firstNode + min nodesLeftToMove
              ((2 : Int) ^ (currentDepth - insertDepth).toNat))).toNat s
            nextNode currentDepth.toNat hnx
          obtain ⟨hia, hib, hic⟩ := ih _ _ _ _ _ _ (by rw [hwc]; exact hn2)
            hf0 (by rw [hwc]; omega) (by intro hlt; omega)
            (by rw [hwc]; omega) r hr
          exact ⟨by rw [hia, hwa], by rw [hib, hwb], by rw [hic, hwc]⟩
        · by_cases hq2 : currentDepth = insertDepth - 1
          · rw [if_neg hq1, if_pos hq2] at hr
            dsimp only at hr
            have hnote : noteRead s firstNode = s :=
              noteRead_inb hf0 (by have := hfd (by omega); omega)
            rw [hnote] at hr
            have hbnd : 0 ≤ (if eqTest s firstNode firstNode
                then firstNode + 1 else firstNode) ∧
                (if eqTest s firstNode firstNode then firstNode + 1
                  else firstNode) ≤ (s.buf.size : Int) := by
              have := hfd (by omega)
              split <;> omega
            obtain ⟨hwa, hwb, hwc, hwd⟩ := writeRun_flags _ s nextNode
              currentDepth.toNat hnx
            obtain ⟨hia, hib, hic⟩ := ih _ _ _ _ _ _ (by rw [hwc]; exact hn2)
              hbnd.1 (by rw [hwc]; exact hbnd.2) (by intro hlt; omega)
              (by rw [hwc]; omega) r hr
            exact ⟨by rw [hia, hwa], by rw [hib, hwb], by rw [hic, hwc]⟩
          · rw [if_neg hq1, if_neg hq2] at hr
            dsimp only at hr
            obtain ⟨hwa, hwb, hwc, hwd⟩ := writeRun_flags _ s nextNode
              currentDepth.toNat hnx
            obtain ⟨hia, hib, hic⟩ := ih _ _ _ _ _ _ (by rw [hwc]; exact hn2)
              hf0 (by rw [hwc]; omega)
              (by intro hlt; have := hfd (by omega); omega)
              (by rw [hwc]; omega) r hr
            exact ⟨by rw [hia, hwa], by rw [hib, hwb], by rw [hic, hwc]⟩
      · rw [if_neg hfz] at hr
        obtain ⟨hp1, hp2, hp3⟩ := first_flags s (firstNode - 1) nodesToMove
          hntm (by omega) hn2
        rw [hp1] at hr
        by_cases hq1 : insertDepth ≤ currentDepth
        · rw [if_pos hq1] at hr
          dsimp only at hr
          obtain ⟨hwa, hwb, hwc, hwd⟩ := writeRun_flags _ s nextNode
            currentDepth.toNat hnx
          obtain ⟨hia, hib, hic⟩ := ih _ _ _ _ _ _ (by rw [hwc]; exact hn2)
            hp2 (by rw [hwc]; omega) (by intro hlt; omega)
            (by rw [hwc]; omega) r hr
          exact ⟨by rw [hia, hwa], by rw [hib, hwb], by rw [hic, hwc]⟩
        · by_cases hq2 : currentDepth = insertDepth - 1
          · rw [if_neg hq1, if_pos hq2] at hr
            dsimp only at hr
            have hnote : noteRead s (first s (firstNode - 1) nodesToMove).2
                = s := noteRead_inb hp2 (by omega)
            rw [hnote] at hr
            have hbnd : 0 ≤ (if eqTest s (first s (firstNode - 1)
                  nodesToMove).2 firstNode
                then (first s (firstNode - 1) nodesToMove).2 + 1
                else (first s (firstNode - 1) nodesToMove).2) ∧
                (if eqTest s (first s (firstNode - 1) nodesToMove).2 firstNode
                  then (first s (firstNode - 1) nodesToMove).2 + 1
                  else (first s (firstNode - 1) nodesToMove).2)
                  ≤ (s.buf.size : Int) := by
              split <;> omega
            obtain ⟨hwa, hwb, hwc, hwd⟩ := writeRun_flags _ s nextNode
              currentDepth.toNat hnx
            obtain ⟨hia, hib, hic⟩ := ih _ _ _ _ _ _ (by rw [hwc]; exact hn2)
              hbnd.1 (by rw [hwc]; exact hbnd.2) (by intro hlt; omega)
              (by rw [hwc]; omega) r hr
            exact ⟨by rw [hia, hwa], by rw [hib, hwb], by rw [hic, hwc]⟩
          · rw [if_neg hq1, if_neg hq2] at hr
            dsimp only at hr
            obtain ⟨hwa, hwb, hwc, hwd⟩ := writeRun_flags _ s nextNode
              currentDepth.toNat hnx
            obtain ⟨hia, hib, hic⟩ := ih _ _ _ _ _ _ (by rw [hwc]; exact hn2)
              hp2 (by rw [hwc]; omega) (by intro hlt; omega)
              (by rw [hwc]; omega) r hr
            exact ⟨by rw [hia, hwa], by rw [hib, hwb], by rw [hic, hwc]⟩
    · rw [if_neg hcond] at hr
      subst hr
      exact ⟨rfl, rfl, rfl⟩

/-- C5 amended: for every input buffer with `n ≥ 1` and every integer
`maximumLength`, `allocateHuffmanCodeLengths` reads only indices `0..n-1`
and never writes at an index `≥ n`; writes below index 0 can occur (see
`access_escapes_buffer`), so only the lower write bound of the original
claim fails. -/
theorem alloc_reads_writes_bounded (a : Array Nat) (ml : Int)
    (h1 : 1 ≤ a.size) :
    (runAlloc a ml).okRead = true ∧ (runAlloc a ml).okWriteHigh = true := by
  have hba : ({ buf := a } : St).buf.size = a.size := rfl
  unfold runAlloc allocateHuffmanCodeLengths
  by_cases h2 : ({ buf := a } : St).buf.size = 2
  · rw [if_pos h2]
    have hsz1 : (wr ({ buf := a } : St) 1 1).buf.size = a.size :=
      wr_size _ _ _
    constructor
    · rw [wr_okRead, wr_okRead]
    · rw [wr_okHigh _ (by rw [hsz1]; omega),
        wr_okHigh _ (by rw [hba] at h2; rw [hba]; omega)]
  · rw [if_neg h2]
    by_cases h1' : ({ buf := a } : St).buf.size = 1
    · rw [if_pos h1']
      constructor
      · rw [wr_okRead]
      · rw [wr_okHigh _ (by rw [hba] at h1'; rw [hba]; omega)]
    · rw [if_neg h1']
      dsimp only
      have h3 : 3 ≤ a.size := by rw [hba] at h2 h1'; omega
      obtain ⟨hp_sz, -, -, hpR, hpH⟩ := pass1_facts a h3
      have hsz1 : (setExtendedParentPointers { buf := a }).size
          = (a.size : Int) := by
        rw [show (setExtendedParentPointers { buf := a }).size
          = ((setExtendedParentPointers { buf := a }).buf.size : Int)
          from rfl, hp_sz]
      obtain ⟨hf1, hf2, hf3⟩ := fntrLoop_flags ml (ml.toNat + 2)
        (setExtendedParentPointers { buf := a }) 1
        ((setExtendedParentPointers { buf := a }).size - 2)
        (by rw [hp_sz]; omega) (by omega)
        (by rw [hp_sz]; omega)
        (findNodesToRelocate (setExtendedParentPointers { buf := a }) ml) rfl
      have hnote : noteRead (setExtendedParentPointers { buf := a }) 0
          = setExtendedParentPointers { buf := a } :=
        noteRead_inb (by omega) (by rw [hp_sz]; omega)
      rw [hf1, hnote]
      by_cases hdp : (findNodesToRelocate
          (setExtendedParentPointers { buf := a }) ml).2 ≤
          ((rdV (setExtendedParentPointers { buf := a }) 0 %
            (setExtendedParentPointers { buf := a }).buf.size : Nat) : Int)
      · rw [if_pos hdp]
        obtain ⟨ha, hb, hc⟩ := anlLoop_flags
          ((setExtendedParentPointers { buf := a }).buf.size + 2)
          (setExtendedParentPointers { buf := a })
          ((setExtendedParentPointers { buf := a }).size - 2)
          ((setExtendedParentPointers { buf := a }).size - 1) 1 2
          (by omega) (by omega) (by omega)
          (allocateNodeLengths (setExtendedParentPointers { buf := a })) rfl
        exact ⟨ha.trans hpR, hb.trans hpH⟩
      · rw [if_neg hdp]
        obtain ⟨ha, hb, hc⟩ := anlrLoop_flags
          (findNodesToRelocate (setExtendedParentPointers { buf := a }) ml).2
          (ml - (fls ((findNodesToRelocate
            (setExtendedParentPointers { buf := a }) ml).2 - 1).toNat : Int))
          hf2
          (4 * (setExtendedParentPointers { buf := a }).buf.size + 64)
          (setExtendedParentPointers { buf := a })
          ((setExtendedParentPointers { buf := a }).size - 2)
          ((setExtendedParentPointers { buf := a }).size - 1)
          (relocInit (findNodesToRelocate
            (setExtendedParentPointers { buf := a }) ml).2
            (ml - (fls ((findNodesToRelocate
              (setExtendedParentPointers { buf := a }) ml).2 - 1).toNat
              : Int))).1
          (relocInit (findNodesToRelocate
            (setExtendedParentPointers { buf := a }) ml).2
            (ml - (fls ((findNodesToRelocate
              (setExtendedParentPointers { buf := a }) ml).2 - 1).toNat
              : Int))).2.2
          (relocInit (findNodesToRelocate
            (setExtendedParentPointers { buf := a }) ml).2
            (ml - (fls ((findNodesToRelocate
              (setExtendedParentPointers { buf := a }) ml).2 - 1).toNat
              : Int))).2.1
          (by omega) (by omega) (by omega)
          (by intro hlt; omega)
          (by omega)
          (allocateNodeLengthsWithRelocation
            (setExtendedParentPointers { buf := a })
            (findNodesToRelocate (setExtendedParentPointers { buf := a })
              ml).2
            (ml - (fls ((findNodesToRelocate
              (setExtendedParentPointers { buf := a }) ml).2 - 1).toNat
              : Int))) rfl
        exact ⟨ha.trans hpR, hb.trans hpH⟩

theorem alloc_reads_writes_bounded_witness :
    1 ≤ (#[0, 0, 0, 0, 0] : Array Nat).size ∧
    (runAlloc #[0, 0, 0, 0, 0] 0).okRead = true ∧
    (runAlloc #[0, 0, 0, 0, 0] 0).okWriteHigh = true :=
  ⟨by decide, alloc_reads_writes_bounded #[0, 0, 0, 0, 0] 0 (by decide)⟩
